import Mathlib

/-!
# Verification of the LRC parsing and timeline-lookup module

This file is a shallow embedding of the repository's `lrc-parser` module
(`parseLrc` and `getCurrentLine`) together with proofs of the specified
properties.

Modelling choices:

* JavaScript numbers are modelled exactly.  Every number produced by the
  module is obtained from decimal literals by sums, products and decimal
  scaling, so each value is an exact scaled decimal `m * 10 ^ e`.  The
  structure `DecNum` records such a value as a mantissa and a decimal
  exponent; `DecNum.toRat` gives its numeric value in `ℚ`.  All quantities
  appearing in the specification are far inside the range where IEEE
  doubles represent these decimals distinguishably, so order and equality
  of the modelled values coincide with the double-precision behaviour.
* Strings are processed as `List Char`, matching character-for-character
  the JavaScript string operations used by the source (`split`, `trim`,
  `match`, `replace` with the two literal regular expressions, and
  `parseFloat`).  The regular expressions are compiled by hand into
  leftmost-match scanners, preserving greedy and lazy alternation order.
* `parseFloat` is modelled on finite decimal literals (optional sign,
  digits with optional fraction and exponent, longest valid prefix); the
  JavaScript `Infinity` literal is outside the exact-decimal carrier and
  does not occur in any input considered here.
* `Array.prototype.sort` with comparator `(a, b) => a.lineTime - b.lineTime`
  is a stable ascending sort by `lineTime`; any stable sort computes the
  same list, and we use insertion sort on the same key order.
* The JavaScript style object is modelled as an association list in
  insertion order; assigning to an existing key overwrites its value in
  place, as JS object assignment does.
-/

/-- An exact scaled decimal `m * 10 ^ e`, the carrier for the JavaScript
numbers computed by the module. -/
structure DecNum where
  m : ℤ
  e : ℤ
deriving DecidableEq, Repr

namespace DecNum

/-- The numeric value of a scaled decimal. -/
def toRat (a : DecNum) : ℚ := (a.m : ℚ) * 10 ^ a.e

/-- Product of two scaled decimals (used for `minutes * 60`). -/
def mul (a b : DecNum) : DecNum := ⟨a.m * b.m, a.e + b.e⟩

/-- Sum of two scaled decimals, aligned at the smaller exponent
(used for `minutes * 60 + seconds`). -/
def add (a b : DecNum) : DecNum :=
  let d := min a.e b.e
  ⟨a.m * 10 ^ (a.e - d).toNat + b.m * 10 ^ (b.e - d).toNat, d⟩

/-- Order test on scaled decimals, by cross-scaling to a common exponent;
this is the comparison the JavaScript `>=` / sort comparator performs. -/
def ble (a b : DecNum) : Bool :=
  let d := min a.e b.e
  decide (a.m * 10 ^ (a.e - d).toNat ≤ b.m * 10 ^ (b.e - d).toNat)

end DecNum

/-- The whitespace test of JavaScript `trim` (ASCII range). -/
def isWsChar (c : Char) : Bool :=
  c == ' ' || c == '\t' || c == '\n' || c == '\r' || c == '\x0b' || c == '\x0c'

/-- `String.prototype.trim` on a character list. -/
def trimList (cs : List Char) : List Char :=
  ((cs.dropWhile isWsChar).reverse.dropWhile isWsChar).reverse

/-- Value of a digit string (the core of `parseInt(s, 10)` on an
all-digit string, and of mantissa accumulation in `parseFloat`). -/
def digitsToNat (ds : List Char) : ℕ :=
  ds.foldl (fun acc c => 10 * acc + (c.toNat - 48)) 0

/-- Split a character list into its longest digit prefix and the rest. -/
def takeDigits (cs : List Char) : List Char × List Char :=
  (cs.takeWhile Char.isDigit, cs.dropWhile Char.isDigit)

/-- JavaScript `parseFloat` on a character list, restricted to finite
decimal literals: skip leading whitespace, optional sign, digits with
optional fraction, optional exponent; the longest valid prefix is
converted and `none` is returned when no prefix is a number (the `NaN`
case). -/
def parseFloat (s : List Char) : Option DecNum :=
  let cs0 := s.dropWhile isWsChar
  let sgn : ℤ × List Char :=
    match cs0 with
    | c :: rest => if c = '+' then (1, rest) else if c = '-' then (-1, rest) else (1, cs0)
    | [] => (1, cs0)
  let intPart := takeDigits sgn.2
  let fracPart : List Char × List Char :=
    match intPart.2 with
    | c :: rest => if c = '.' then takeDigits rest else ([], intPart.2)
    | [] => ([], intPart.2)
  if intPart.1.isEmpty && fracPart.1.isEmpty then none
  else
    let ev : ℤ :=
      match fracPart.2 with
      | c :: rest =>
        if c = 'e' ∨ c = 'E' then
          let esgn : ℤ × List Char :=
            match rest with
            | d :: rest2 => if d = '+' then (1, rest2) else if d = '-' then (-1, rest2) else (1, rest)
            | [] => (1, rest)
          let eds := takeDigits esgn.2
          if eds.1.isEmpty then 0 else esgn.1 * (digitsToNat eds.1 : ℤ)
        else 0
      | [] => 0
    some ⟨sgn.1 * (digitsToNat (intPart.1 ++ fracPart.1) : ℤ), ev - fracPart.1.length⟩

/-- After the two second digits of the timestamp pattern
`\[(\d{2}):(\d{2}(?:\.\d{2,3})?)\]`, the remainder must be either a
closing bracket or a fraction; the closing bracket and the dot cases are
mutually exclusive on the first character. -/
def fracTail (cs : List Char) : Option (List Char × List Char) :=
  match cs with
  | b :: c :: d :: e :: rest =>
    if b.isDigit ∧ c.isDigit ∧ d.isDigit ∧ e = ']' then some (['.', b, c, d], rest)
    else if b.isDigit ∧ c.isDigit ∧ d = ']' then some (['.', b, c], e :: rest)
    else none
  | [b, c, d] =>
    if b.isDigit ∧ c.isDigit ∧ d = ']' then some (['.', b, c], []) else none
  | _ => none

/-- Continue the timestamp pattern after `[\d{2}:\d{2}`: either `]`, or a
greedy fractional part `\.\d{2,3}` followed by `]`. -/
def afterSeconds (cs : List Char) : Option (List Char × List Char) :=
  match cs with
  | [] => none
  | a :: rest =>
    if a = ']' then some ([], rest)
    else if a = '.' then fracTail rest
    else none

/-- Try to match the timestamp regular expression at the head of the
list.  On success, returns the two captures (minute digits, second string
with optional fraction) and the characters after the match. -/
def timeTagAt (cs : List Char) : Option (List Char × List Char × List Char) :=
  match cs with
  | a :: d1 :: d2 :: b :: d3 :: d4 :: rest =>
    if a = '[' ∧ d1.isDigit ∧ d2.isDigit ∧ b = ':' ∧ d3.isDigit ∧ d4.isDigit then
      match afterSeconds rest with
      | some (frac, rest2) => some ([d1, d2], [d3, d4] ++ frac, rest2)
      | none => none
    else none
  | _ => none

/-- Leftmost match of the timestamp regular expression: the characters
before the match, the two captures, and the characters after the match.
This is what `line.match(timeRegex)` finds and what
`line.replace(timeRegex, '')` removes. -/
def findTimeTag : List Char → Option (List Char × List Char × List Char × List Char)
  | [] => none
  | c :: cs =>
    match timeTagAt (c :: cs) with
    | some (mm, ss, rest) => some ([], mm, ss, rest)
    | none =>
      match findTimeTag cs with
      | some (pre, mm, ss, rest) => some (c :: pre, mm, ss, rest)
      | none => none

/-- Lazy body of the style regular expression `\{(.*?)\}` after an opening
brace: the shortest run of non-terminator characters up to a closing
brace. -/
def takeToBrace : List Char → Option (List Char × List Char)
  | [] => none
  | c :: cs =>
    if c = '}' then some ([], cs)
    else if c = '\n' ∨ c = '\r' then none
    else
      match takeToBrace cs with
      | some (content, rest) => some (c :: content, rest)
      | none => none

/-- Try to match the style regular expression at the head of the list. -/
def styleAt (cs : List Char) : Option (List Char × List Char) :=
  match cs with
  | [] => none
  | c :: rest => if c = '{' then takeToBrace rest else none

/-- Leftmost match of the style regular expression: characters before the
match, the captured annotation content, and the characters after. -/
def findStyle : List Char → Option (List Char × List Char × List Char)
  | [] => none
  | c :: cs =>
    match styleAt (c :: cs) with
    | some (content, rest) => some ([], content, rest)
    | none =>
      match findStyle cs with
      | some (pre, content, rest) => some (c :: pre, content, rest)
      | none => none

/-- A style value is either a number or a string, mirroring the
`string | number` union of the source. -/
inductive StyleVal where
  | num (v : DecNum)
  | str (s : String)
deriving DecidableEq, Repr

/-- Assignment `style[key] = v` on a JavaScript object modelled as an
association list: an existing key keeps its position and gets the new
value, a new key is appended. -/
def insertStyle (st : List (String × StyleVal)) (k : String) (v : StyleVal) :
    List (String × StyleVal) :=
  if st.any (fun p => p.1 == k) then
    st.map (fun p => if p.1 == k then (k, v) else p)
  else st ++ [(k, v)]

/-- One iteration of the style-pair loop: split the segment on `':'`,
trim the parts, keep the first two as key and value, drop the pair when
either is missing or empty, and coerce the value with `parseFloat`. -/
def parseStylePair (st : List (String × StyleVal)) (pair : List Char) :
    List (String × StyleVal) :=
  match (pair.splitOn ':').map trimList with
  | k :: v :: _ =>
    if k ≠ [] ∧ v ≠ [] then
      match parseFloat v with
      | some n => insertStyle st (String.mk k) (StyleVal.num n)
      | none => insertStyle st (String.mk k) (StyleVal.str (String.mk v))
    else st
  | _ => st

/-- Parse the captured annotation content `key:val, key2:val2`. -/
def parseStyle (content : List Char) : List (String × StyleVal) :=
  (content.splitOn ',').foldl parseStylePair []

/-- One parsed line: time in seconds, display text, optional style map. -/
structure LrcLine where
  lineTime : DecNum
  text : String
  style : Option (List (String × StyleVal))
deriving DecidableEq, Repr

/-- Process one input line of `parseLrc`: find the timestamp tag, compute
`minutes * 60 + seconds`, remove the tag, trim, extract and remove the
optional style annotation, and build the record; lines without a tag
produce nothing. -/
def parseLine (line : List Char) : Option LrcLine :=
  match findTimeTag line with
  | none => none
  | some (pre, mm, ss, post) =>
    let minutes : DecNum := ⟨(digitsToNat mm : ℤ), 0⟩
    let seconds : DecNum := (parseFloat ss).getD ⟨0, 0⟩
    let totalSeconds := DecNum.add (DecNum.mul minutes ⟨60, 0⟩) seconds
    let text1 := trimList (pre ++ post)
    match findStyle text1 with
    | some (sb, content, sa) =>
      some ⟨totalSeconds, String.mk (trimList (sb ++ sa)), some (parseStyle content)⟩
    | none => some ⟨totalSeconds, String.mk text1, none⟩

/-- The comparator order used by the final sort. -/
def lineLe (a b : LrcLine) : Prop := a.lineTime.ble b.lineTime = true

instance : DecidableRel lineLe := fun _ _ =>
  inferInstanceAs (Decidable (_ = true))

/-- `parseLrc`: split the input on newlines, parse each line, and sort
the result ascending by `lineTime` (the source uses the stable
`Array.prototype.sort`; insertion sort on the same order computes the
same list). -/
def parseLrc (lrcContent : String) : List LrcLine :=
  let lines := lrcContent.data.splitOn '\n'
  let result := lines.filterMap parseLine
  List.insertionSort lineLe result

/-- `getCurrentLine`: scan from the end of the list and return the first
line whose `lineTime` does not exceed the current time, i.e. the last
line that has started. -/
def getCurrentLine (lines : List LrcLine) (currentTime : DecNum) : Option LrcLine :=
  lines.reverse.find? (fun l => l.lineTime.ble currentTime)

/-! ## Numeric bridging lemmas -/

theorem DecNum.toRat_mk (m e : ℤ) : DecNum.toRat ⟨m, e⟩ = (m : ℚ) * 10 ^ e := rfl

theorem DecNum.toRat_def (a : DecNum) : a.toRat = (a.m : ℚ) * 10 ^ a.e := rfl

theorem DecNum.toRat_int (m : ℤ) : DecNum.toRat ⟨m, 0⟩ = (m : ℚ) := by
  rw [DecNum.toRat_mk, zpow_zero, mul_one]

theorem DecNum.toRat_negExp (m : ℤ) (k : ℕ) :
    DecNum.toRat ⟨m, -(k : ℤ)⟩ = (m : ℚ) / 10 ^ k := by
  rw [DecNum.toRat_mk, zpow_neg, zpow_natCast, div_eq_mul_inv]

theorem DecNum.toRat_shift (x ee d : ℤ) (h : d ≤ ee) :
    ((x * 10 ^ (ee - d).toNat : ℤ) : ℚ) * 10 ^ d = (x : ℚ) * 10 ^ ee := by
  have hten : (10 : ℚ) ≠ 0 := by norm_num
  push_cast
  rw [← zpow_natCast (10 : ℚ) (ee - d).toNat, Int.toNat_of_nonneg (by omega : (0 : ℤ) ≤ ee - d)]
  rw [mul_assoc, ← zpow_add₀ hten]
  have : ee - d + d = ee := by omega
  rw [this]

theorem DecNum.toRat_add (a b : DecNum) : (a.add b).toRat = a.toRat + b.toRat := by
  have h1 := DecNum.toRat_shift a.m a.e (min a.e b.e) (min_le_left _ _)
  have h2 := DecNum.toRat_shift b.m b.e (min a.e b.e) (min_le_right _ _)
  show ((a.m * 10 ^ (a.e - min a.e b.e).toNat + b.m * 10 ^ (b.e - min a.e b.e).toNat : ℤ) : ℚ)
      * 10 ^ (min a.e b.e) = (a.m : ℚ) * 10 ^ a.e + (b.m : ℚ) * 10 ^ b.e
  rw [Int.cast_add, add_mul, h1, h2]

theorem DecNum.toRat_mul (a b : DecNum) : (a.mul b).toRat = a.toRat * b.toRat := by
  show ((a.m * b.m : ℤ) : ℚ) * 10 ^ (a.e + b.e) = ((a.m : ℚ) * 10 ^ a.e) * ((b.m : ℚ) * 10 ^ b.e)
  rw [zpow_add₀ (by norm_num : (10 : ℚ) ≠ 0)]
  push_cast
  ring

theorem DecNum.ble_iff (a b : DecNum) : a.ble b = true ↔ a.toRat ≤ b.toRat := by
  have hpos : (0 : ℚ) < 10 ^ (min a.e b.e) := by positivity
  have h1 := DecNum.toRat_shift a.m a.e (min a.e b.e) (min_le_left _ _)
  have h2 := DecNum.toRat_shift b.m b.e (min a.e b.e) (min_le_right _ _)
  unfold DecNum.ble
  rw [decide_eq_true_iff]
  constructor
  · intro h
    have hc : ((a.m * 10 ^ (a.e - min a.e b.e).toNat : ℤ) : ℚ)
        ≤ ((b.m * 10 ^ (b.e - min a.e b.e).toNat : ℤ) : ℚ) := Int.cast_le.mpr h
    have := mul_le_mul_of_nonneg_right hc hpos.le
    rwa [h1, h2] at this
  · intro h
    rw [DecNum.toRat_def, DecNum.toRat_def, ← h1, ← h2] at h
    exact Int.cast_le.mp (le_of_mul_le_mul_right h hpos)

theorem DecNum.not_ble_iff (a b : DecNum) : a.ble b = false ↔ b.toRat < a.toRat := by
  rw [← not_le, ← DecNum.ble_iff, Bool.not_eq_true, Bool.eq_false_iff, ne_eq, Bool.not_eq_true]

/-! ## Character and digit-string lemmas -/

theorem isWsChar_eq_false_of_isDigit {c : Char} (h : c.isDigit = true) : isWsChar c = false := by
  cases hc : isWsChar c
  · rfl
  · exfalso
    have hor : c = ' ' ∨ c = '\t' ∨ c = '\n' ∨ c = '\r' ∨ c = '\x0b' ∨ c = '\x0c' := by
      simpa [isWsChar, or_assoc] using hc
    obtain rfl | rfl | rfl | rfl | rfl | rfl := hor <;> exact absurd h (by decide)

theorem ne_of_isDigit {c x : Char} (h : c.isDigit = true) (hx : x.isDigit = false) : c ≠ x := by
  rintro rfl
  rw [h] at hx
  exact absurd hx (by decide)

theorem digits_foldl (ys : List Char) : ∀ acc : ℕ,
    ys.foldl (fun a c => 10 * a + (c.toNat - 48)) acc
      = acc * 10 ^ ys.length + digitsToNat ys := by
  induction ys with
  | nil => intro acc; simp [digitsToNat]
  | cons c ys ih =>
    intro acc
    have hl : (c :: ys).foldl (fun a c => 10 * a + (c.toNat - 48)) acc
        = ys.foldl (fun a c => 10 * a + (c.toNat - 48)) (10 * acc + (c.toNat - 48)) := rfl
    have hr : digitsToNat (c :: ys)
        = ys.foldl (fun a c => 10 * a + (c.toNat - 48)) (10 * 0 + (c.toNat - 48)) := rfl
    rw [hl, hr, ih, ih]
    ring_nf
    simp [List.length_cons, pow_succ]
    ring

theorem digitsToNat_append (xs ys : List Char) :
    digitsToNat (xs ++ ys) = digitsToNat xs * 10 ^ ys.length + digitsToNat ys := by
  unfold digitsToNat
  rw [List.foldl_append]
  exact digits_foldl ys _

theorem takeDigits_append (ds rest : List Char) (h : ∀ c ∈ ds, c.isDigit = true)
    (hr : ∀ c cs, rest = c :: cs → c.isDigit = false) :
    takeDigits (ds ++ rest) = (ds, rest) := by
  induction ds with
  | nil =>
    cases rest with
    | nil => rfl
    | cons c cs => simp [takeDigits, List.takeWhile, List.dropWhile, hr c cs rfl]
  | cons d ds ih =>
    have hd : d.isDigit = true := h d (List.mem_cons_self d ds)
    have ih2 := ih (fun c hc => h c (List.mem_cons_of_mem d hc))
    simp only [takeDigits, Prod.mk.injEq] at ih2
    simp [takeDigits, List.takeWhile, List.dropWhile, hd, ih2.1, ih2.2]

theorem dropWhile_ws_digits (ds rest : List Char) (hne : ds ≠ [])
    (h : ∀ c ∈ ds, c.isDigit = true) :
    (ds ++ rest).dropWhile isWsChar = ds ++ rest := by
  cases ds with
  | nil => exact absurd rfl hne
  | cons d ds =>
    have : isWsChar d = false := isWsChar_eq_false_of_isDigit (h d (List.mem_cons_self d ds))
    simp [List.dropWhile, this]

/-- `parseFloat` on a non-empty all-digit string is its integer value. -/
theorem parseFloat_digits (ds : List Char) (hne : ds ≠ []) (h : ∀ c ∈ ds, c.isDigit = true) :
    parseFloat ds = some ⟨(digitsToNat ds : ℤ), 0⟩ := by
  obtain ⟨d, ds2, rfl⟩ := List.exists_cons_of_ne_nil hne
  have hd : d.isDigit = true := h d (List.mem_cons_self d ds2)
  have hdrop : (d :: ds2).dropWhile isWsChar = d :: ds2 := by
    simpa using dropWhile_ws_digits (d :: ds2) [] hne h
  have htake : takeDigits (d :: ds2) = (d :: ds2, []) := by
    simpa using takeDigits_append (d :: ds2) [] h (fun c cs hc => by cases hc)
  unfold parseFloat
  rw [hdrop]
  have hplus : d ≠ '+' := ne_of_isDigit hd (by decide)
  have hminus : d ≠ '-' := ne_of_isDigit hd (by decide)
  simp only [hplus, hminus, if_false, htake, List.isEmpty_cons, Bool.false_and, Bool.false_eq_true,
    if_false, List.append_nil]
  norm_num

/-- `parseFloat` on `digits.digits` is the two-part decimal value. -/
theorem parseFloat_digits_frac (ds fs : List Char) (hne : ds ≠ [])
    (hds : ∀ c ∈ ds, c.isDigit = true) (hfs : ∀ c ∈ fs, c.isDigit = true) :
    parseFloat (ds ++ '.' :: fs) = some ⟨(digitsToNat (ds ++ fs) : ℤ), -(fs.length : ℤ)⟩ := by
  have hdrop := dropWhile_ws_digits ds ('.' :: fs) hne hds
  have htake : takeDigits (ds ++ '.' :: fs) = (ds, '.' :: fs) :=
    takeDigits_append ds ('.' :: fs) hds (fun c cs hc => by
      injection hc with h1 h2; rw [← h1]; decide)
  have htake2 : takeDigits fs = (fs, []) := by
    simpa using takeDigits_append fs [] hfs (fun c cs hc => by cases hc)
  obtain ⟨d, ds2, rfl⟩ := List.exists_cons_of_ne_nil hne
  have hd : d.isDigit = true := hds d (List.mem_cons_self d ds2)
  have hplus : d ≠ '+' := ne_of_isDigit hd (by decide)
  have hminus : d ≠ '-' := ne_of_isDigit hd (by decide)
  have hdrop2 : List.dropWhile isWsChar (d :: (ds2 ++ '.' :: fs)) = d :: (ds2 ++ '.' :: fs) := by
    simpa using hdrop
  have htake3 : takeDigits (d :: (ds2 ++ '.' :: fs)) = (d :: ds2, '.' :: fs) := by
    simpa using htake
  unfold parseFloat
  simp only [List.cons_append]
  rw [hdrop2]
  simp only [hplus, hminus, if_false, htake3]
  simp only [if_pos rfl, htake2, List.isEmpty_cons, Bool.false_and, Bool.false_eq_true,
    if_false]
  have : digitsToNat (d :: ds2 ++ fs) = digitsToNat (d :: (ds2 ++ fs)) := rfl
  norm_num [this]

/-! ## Timestamp-scanner lemmas -/

theorem afterSeconds_bracket (post : List Char) :
    afterSeconds (']' :: post) = some ([], post) := by
  simp [afterSeconds]

theorem afterSeconds_frac3 (f1 f2 f3 : Char) (h1 : f1.isDigit = true) (h2 : f2.isDigit = true)
    (h3 : f3.isDigit = true) (post : List Char) :
    afterSeconds ('.' :: f1 :: f2 :: f3 :: ']' :: post) = some (['.', f1, f2, f3], post) := by
  have : ('.' : Char) ≠ ']' := by decide
  simp [afterSeconds, fracTail, this, h1, h2, h3]

theorem afterSeconds_frac2 (f1 f2 : Char) (h1 : f1.isDigit = true) (h2 : f2.isDigit = true)
    (post : List Char) :
    afterSeconds ('.' :: f1 :: f2 :: ']' :: post) = some (['.', f1, f2], post) := by
  have hd : ('.' : Char) ≠ ']' := by decide
  have hb : (']' : Char).isDigit = false := by decide
  cases post with
  | nil => simp [afterSeconds, fracTail, hd, h1, h2]
  | cons p ps => simp [afterSeconds, fracTail, hd, hb, h1, h2]

theorem timeTagAt_cons (d1 d2 d3 d4 : Char) (h1 : d1.isDigit = true) (h2 : d2.isDigit = true)
    (h3 : d3.isDigit = true) (h4 : d4.isDigit = true) (rest : List Char) :
    timeTagAt ('[' :: d1 :: d2 :: ':' :: d3 :: d4 :: rest) =
      match afterSeconds rest with
      | some (frac, rest2) => some ([d1, d2], [d3, d4] ++ frac, rest2)
      | none => none := by
  simp [timeTagAt, h1, h2, h3, h4]

theorem timeTagAt_ne {c : Char} (h : c ≠ '[') (cs : List Char) : timeTagAt (c :: cs) = none := by
  rcases cs with _ | ⟨x1, _ | ⟨x2, _ | ⟨x3, _ | ⟨x4, _ | ⟨x5, rest⟩⟩⟩⟩⟩ <;> simp [timeTagAt, h]

theorem findTimeTag_cons_some (c : Char) (cs mm ss rest : List Char)
    (h : timeTagAt (c :: cs) = some (mm, ss, rest)) :
    findTimeTag (c :: cs) = some ([], mm, ss, rest) := by
  unfold findTimeTag
  rw [h]

theorem findTimeTag_cons_none (c : Char) (cs : List Char) (h : timeTagAt (c :: cs) = none) :
    findTimeTag (c :: cs) =
      match findTimeTag cs with
      | some (pre, mm, ss, rest) => some (c :: pre, mm, ss, rest)
      | none => none := by
  simp only [findTimeTag, h]

/-- Leftmost search over a prefix that contains no opening bracket just
shifts the match. -/
theorem findTimeTag_append (pre : List Char) (hpre : '[' ∉ pre) (cs : List Char) :
    findTimeTag (pre ++ cs) =
      match findTimeTag cs with
      | some (p, mm, ss, rest) => some (pre ++ p, mm, ss, rest)
      | none => none := by
  induction pre with
  | nil =>
    simp only [List.nil_append]
    cases h : findTimeTag cs with
    | none => rfl
    | some r => obtain ⟨p, mm, ss, rest⟩ := r; rfl
  | cons c pre ih =>
    have hc : c ≠ '[' := fun hh => hpre (hh ▸ List.mem_cons_self c pre)
    have hpre2 : '[' ∉ pre := fun hh => hpre (List.mem_cons_of_mem c hh)
    rw [List.cons_append, findTimeTag_cons_none c (pre ++ cs) (timeTagAt_ne hc _), ih hpre2]
    cases h : findTimeTag cs with
    | none => rfl
    | some r => obtain ⟨p, mm, ss, rest⟩ := r; rfl

/-- The timestamp tag is matched at the start of `[dd:dd]…` with no
fractional part. -/
theorem findTimeTag_tag (d1 d2 d3 d4 : Char) (h1 : d1.isDigit = true) (h2 : d2.isDigit = true)
    (h3 : d3.isDigit = true) (h4 : d4.isDigit = true) (post : List Char) :
    findTimeTag ('[' :: d1 :: d2 :: ':' :: d3 :: d4 :: ']' :: post) =
      some ([], [d1, d2], [d3, d4], post) := by
  apply findTimeTag_cons_some
  rw [timeTagAt_cons d1 d2 d3 d4 h1 h2 h3 h4, afterSeconds_bracket]
  rfl

/-- The timestamp tag is matched at the start of `[dd:dd.fff]…`. -/
theorem findTimeTag_tag_frac3 (d1 d2 d3 d4 f1 f2 f3 : Char) (h1 : d1.isDigit = true)
    (h2 : d2.isDigit = true) (h3 : d3.isDigit = true) (h4 : d4.isDigit = true)
    (g1 : f1.isDigit = true) (g2 : f2.isDigit = true) (g3 : f3.isDigit = true)
    (post : List Char) :
    findTimeTag ('[' :: d1 :: d2 :: ':' :: d3 :: d4 :: '.' :: f1 :: f2 :: f3 :: ']' :: post) =
      some ([], [d1, d2], [d3, d4, '.', f1, f2, f3], post) := by
  apply findTimeTag_cons_some
  rw [timeTagAt_cons d1 d2 d3 d4 h1 h2 h3 h4, afterSeconds_frac3 f1 f2 f3 g1 g2 g3]
  rfl

/-- The timestamp tag is matched at the start of `[dd:dd.ff]…`. -/
theorem findTimeTag_tag_frac2 (d1 d2 d3 d4 f1 f2 : Char) (h1 : d1.isDigit = true)
    (h2 : d2.isDigit = true) (h3 : d3.isDigit = true) (h4 : d4.isDigit = true)
    (g1 : f1.isDigit = true) (g2 : f2.isDigit = true) (post : List Char) :
    findTimeTag ('[' :: d1 :: d2 :: ':' :: d3 :: d4 :: '.' :: f1 :: f2 :: ']' :: post) =
      some ([], [d1, d2], [d3, d4, '.', f1, f2], post) := by
  apply findTimeTag_cons_some
  rw [timeTagAt_cons d1 d2 d3 d4 h1 h2 h3 h4, afterSeconds_frac2 f1 f2 g1 g2]
  rfl

/-! ## Trim lemmas -/

theorem dropWhile_ws_all (w rest : List Char) (hw : ∀ c ∈ w, isWsChar c = true) :
    (w ++ rest).dropWhile isWsChar = rest.dropWhile isWsChar := by
  induction w with
  | nil => rfl
  | cons c w ih =>
    rw [List.cons_append, List.dropWhile_cons_of_pos (by simp [hw c (List.mem_cons_self c w)])]
    exact ih (fun x hx => hw x (List.mem_cons_of_mem c hx))

theorem trimList_ws (w : List Char) (hw : ∀ c ∈ w, isWsChar c = true) : trimList w = [] := by
  unfold trimList
  have h1 : w.dropWhile isWsChar = [] := by
    simpa using dropWhile_ws_all w [] hw
  rw [h1]
  rfl

/-- Trimming strips surrounding whitespace runs around a block that
starts and ends with a non-whitespace character. -/
theorem trimList_sandwich (w1 w2 mid : List Char) (hw1 : ∀ c ∈ w1, isWsChar c = true)
    (hw2 : ∀ c ∈ w2, isWsChar c = true)
    (hhead : ∀ c cs, mid = c :: cs → isWsChar c = false)
    (hlast : ∀ c cs, mid.reverse = c :: cs → isWsChar c = false) :
    trimList (w1 ++ mid ++ w2) = mid := by
  cases mid with
  | nil =>
    apply trimList_ws
    intro c hc
    rcases List.mem_append.mp (by simpa using hc) with h | h
    · exact hw1 c h
    · exact hw2 c h
  | cons m ms =>
    have hm : isWsChar m = false := hhead m ms rfl
    unfold trimList
    rw [List.append_assoc, dropWhile_ws_all w1 _ hw1, List.cons_append,
      List.dropWhile_cons_of_neg (by simp [hm])]
    have hrw : (m :: (ms ++ w2) : List Char).reverse = w2.reverse ++ (m :: ms).reverse := by
      simp
    rw [hrw, dropWhile_ws_all w2.reverse _ (fun c hc => hw2 c (List.mem_reverse.mp hc))]
    obtain ⟨r, rs, hrev⟩ : ∃ r rs, (m :: ms).reverse = r :: rs := by
      have : (m :: ms).reverse ≠ [] := by simp
      exact List.exists_cons_of_ne_nil this
    have hr : isWsChar r = false := hlast r rs hrev
    rw [hrev, List.dropWhile_cons_of_neg (by simp [hr]), ← hrev,
      List.reverse_reverse]

/-! ## Style-scanner lemmas -/

theorem takeToBrace_clean (content rest : List Char)
    (h : ∀ c ∈ content, c ≠ '}' ∧ c ≠ '\n' ∧ c ≠ '\r') :
    takeToBrace (content ++ '}' :: rest) = some (content, rest) := by
  induction content with
  | nil => simp [takeToBrace]
  | cons c cs ih =>
    obtain ⟨hc1, hc2, hc3⟩ := h c (List.mem_cons_self c cs)
    have ih2 := ih (fun x hx => h x (List.mem_cons_of_mem c hx))
    simp [takeToBrace, hc1, hc2, hc3, ih2]

theorem takeToBrace_sound : ∀ (cs content rest : List Char),
    takeToBrace cs = some (content, rest) →
    cs = content ++ '}' :: rest ∧ ∀ c ∈ content, c ≠ '}' ∧ c ≠ '\n' ∧ c ≠ '\r' := by
  intro cs
  induction cs with
  | nil => intro content rest h; exact absurd h (by simp [takeToBrace])
  | cons c cs ih =>
    intro content rest h
    by_cases hc : c = '}'
    · subst hc
      have hb2 : takeToBrace ('}' :: cs) = some ([], cs) := by
        simp [takeToBrace]
      rw [hb2] at h
      have hh := h
      injection hh with hh2
      injection hh2 with ha hb
      rw [← ha, ← hb]
      exact ⟨rfl, by simp⟩
    · by_cases hnl : c = '\n' ∨ c = '\r'
      · rw [show takeToBrace (c :: cs) = none from by simp [takeToBrace, hc, hnl]] at h
        cases h
      · simp only [takeToBrace, if_neg hc, if_neg hnl] at h
        cases hrec : takeToBrace cs with
        | none => rw [hrec] at h; simp at h
        | some r =>
          obtain ⟨content2, rest2⟩ := r
          rw [hrec] at h
          simp only [Option.some.injEq, Prod.mk.injEq] at h
          obtain ⟨h1, h2⟩ := h
          obtain ⟨hb1, hb2⟩ := ih content2 rest2 hrec
          subst h2
          rw [← h1, hb1]
          refine ⟨rfl, ?_⟩
          intro x hx
          rcases List.mem_cons.mp hx with rfl | hx2
          · exact ⟨hc, fun h => hnl (Or.inl h), fun h => hnl (Or.inr h)⟩
          · exact hb2 x hx2

theorem styleAt_ne {c : Char} (h : c ≠ '{') (cs : List Char) : styleAt (c :: cs) = none := by
  simp [styleAt, h]

theorem styleAt_some_elim {c : Char} {cs content rest : List Char}
    (h : styleAt (c :: cs) = some (content, rest)) :
    c = '{' ∧ takeToBrace cs = some (content, rest) := by
  by_cases hc : c = '{'
  · subst hc
    simp only [styleAt, if_pos rfl] at h
    exact ⟨rfl, h⟩
  · rw [styleAt_ne hc] at h
    cases h

theorem findStyle_cons_some (c : Char) (cs content rest : List Char)
    (h : styleAt (c :: cs) = some (content, rest)) :
    findStyle (c :: cs) = some ([], content, rest) := by
  unfold findStyle
  rw [h]

theorem findStyle_cons_none (c : Char) (cs : List Char) (h : styleAt (c :: cs) = none) :
    findStyle (c :: cs) =
      match findStyle cs with
      | some (pre, content, rest) => some (c :: pre, content, rest)
      | none => none := by
  simp only [findStyle, h]

/-- The style annotation is matched at an opening brace whose content is
free of closing braces and line terminators. -/
theorem findStyle_brace (content rest : List Char)
    (h : ∀ c ∈ content, c ≠ '}' ∧ c ≠ '\n' ∧ c ≠ '\r') :
    findStyle ('{' :: (content ++ '}' :: rest)) = some ([], content, rest) := by
  apply findStyle_cons_some
  simp only [styleAt, if_pos rfl]
  exact takeToBrace_clean content rest h

theorem findStyle_none_of_no_brace (cs : List Char) (h : '{' ∉ cs) : findStyle cs = none := by
  induction cs with
  | nil => rfl
  | cons c cs ih =>
    have hc : c ≠ '{' := fun hh => h (hh ▸ List.mem_cons_self c cs)
    rw [findStyle_cons_none c cs (styleAt_ne hc cs), ih (fun hh => h (List.mem_cons_of_mem c hh))]

/-- A style annotation is found exactly when the text decomposes around a
brace pair whose content has no closing brace and no line terminator. -/
theorem findStyle_isSome_iff (cs : List Char) :
    (findStyle cs).isSome = true ↔
      ∃ a m b, cs = a ++ '{' :: (m ++ '}' :: b) ∧ ∀ c ∈ m, c ≠ '}' ∧ c ≠ '\n' ∧ c ≠ '\r' := by
  induction cs with
  | nil =>
    simp only [findStyle, Option.isSome_none, Bool.false_eq_true, false_iff]
    rintro ⟨a, m, b, heq, -⟩
    exact absurd heq (by simp)
  | cons c cs ih =>
    constructor
    · intro h
      cases hsa : styleAt (c :: cs) with
      | some r =>
        obtain ⟨content, rest⟩ := r
        obtain ⟨hc, htb⟩ := styleAt_some_elim hsa
        obtain ⟨hdec, hclean⟩ := takeToBrace_sound cs content rest htb
        exact ⟨[], content, rest, by rw [hc, hdec]; rfl, hclean⟩
      | none =>
        rw [findStyle_cons_none c cs hsa] at h
        cases hfs : findStyle cs with
        | none => rw [hfs] at h; simp at h
        | some r =>
          obtain ⟨p, content, rest⟩ := r
          have : (findStyle cs).isSome = true := by rw [hfs]; rfl
          obtain ⟨a, m, b, heq, hclean⟩ := ih.mp this
          exact ⟨c :: a, m, b, by rw [List.cons_append, heq], hclean⟩
    · rintro ⟨a, m, b, heq, hclean⟩
      cases a with
      | nil =>
        simp only [List.nil_append] at heq
        rw [heq, findStyle_brace m b hclean]
        rfl
      | cons x a2 =>
        rw [List.cons_append] at heq
        injection heq with h1 h2
        have hsub : (findStyle cs).isSome = true := ih.mpr ⟨a2, m, b, h2, hclean⟩
        cases hsa : styleAt (c :: cs) with
        | some r =>
          obtain ⟨content, rest⟩ := r
          rw [findStyle_cons_some c cs content rest hsa]
          rfl
        | none =>
          rw [findStyle_cons_none c cs hsa]
          cases hfs : findStyle cs with
          | none => rw [hfs] at hsub; simp at hsub
          | some r => obtain ⟨p, content, rest⟩ := r; rfl

/-! ## Split lemmas -/

theorem splitOnChar_single (sep : Char) (xs : List Char) (h : sep ∉ xs) :
    xs.splitOn sep = [xs] := by
  show xs.splitOnP (fun x => x == sep) = [xs]
  refine List.splitOnP_eq_single _ _ ?_
  intro x hx hbx
  simp only [beq_iff_eq] at hbx
  exact h (hbx ▸ hx)

theorem splitOnChar_first (sep : Char) (xs : List Char) (h : sep ∉ xs) (as : List Char) :
    (xs ++ sep :: as).splitOn sep = xs :: as.splitOn sep := by
  show (xs ++ sep :: as).splitOnP (fun x => x == sep) = xs :: as.splitOnP (fun x => x == sep)
  refine List.splitOnP_first _ _ ?_ sep (by simp) as
  intro x hx hbx
  simp only [beq_iff_eq] at hbx
  exact h (hbx ▸ hx)

/-! ## `parseLine` and `parseLrc` composition lemmas -/

/-- The time computed for a matched tag with captures `mm` and `ss`:
`minutes * 60 + seconds`. -/
def tagTime (mm ss : List Char) : DecNum :=
  DecNum.add (DecNum.mul ⟨(digitsToNat mm : ℤ), 0⟩ ⟨60, 0⟩) ((parseFloat ss).getD ⟨0, 0⟩)

theorem parseLine_none (line : List Char) (hf : findTimeTag line = none) :
    parseLine line = none := by
  simp only [parseLine, hf]

theorem parseLine_no_style (line pre mm ss post : List Char)
    (hf : findTimeTag line = some (pre, mm, ss, post))
    (hns : findStyle (trimList (pre ++ post)) = none) :
    parseLine line = some ⟨tagTime mm ss, String.mk (trimList (pre ++ post)), none⟩ := by
  simp only [parseLine, hf, hns, tagTime]

theorem parseLine_with_style (line pre mm ss post sb content sa : List Char)
    (hf : findTimeTag line = some (pre, mm, ss, post))
    (hs : findStyle (trimList (pre ++ post)) = some (sb, content, sa)) :
    parseLine line =
      some ⟨tagTime mm ss, String.mk (trimList (sb ++ sa)), some (parseStyle content)⟩ := by
  simp only [parseLine, hf, hs, tagTime]

theorem tagTime_nofrac_toRat (d1 d2 d3 d4 : Char) (h3 : d3.isDigit = true)
    (h4 : d4.isDigit = true) :
    (tagTime [d1, d2] [d3, d4]).toRat
      = (digitsToNat [d1, d2] : ℚ) * 60 + (digitsToNat [d3, d4] : ℚ) := by
  unfold tagTime
  rw [parseFloat_digits [d3, d4] (by simp) (by
    intro c hc
    rcases List.mem_cons.mp hc with rfl | hc2
    · exact h3
    · rcases List.mem_cons.mp hc2 with rfl | hc3
      · exact h4
      · cases hc3)]
  rw [Option.getD_some, DecNum.toRat_add, DecNum.toRat_mul, DecNum.toRat_int, DecNum.toRat_int,
    DecNum.toRat_int]
  push_cast
  ring

theorem tagTime_frac_toRat (d1 d2 d3 d4 : Char) (h3 : d3.isDigit = true)
    (h4 : d4.isDigit = true) (fs : List Char) (hfs : ∀ c ∈ fs, c.isDigit = true) :
    (tagTime [d1, d2] ([d3, d4] ++ '.' :: fs)).toRat
      = (digitsToNat [d1, d2] : ℚ) * 60 + (digitsToNat ([d3, d4] ++ fs) : ℚ) / 10 ^ fs.length := by
  unfold tagTime
  rw [parseFloat_digits_frac [d3, d4] fs (by simp) (by
    intro c hc
    rcases List.mem_cons.mp hc with rfl | hc2
    · exact h3
    · rcases List.mem_cons.mp hc2 with rfl | hc3
      · exact h4
      · cases hc3) hfs]
  rw [Option.getD_some, DecNum.toRat_add, DecNum.toRat_mul, DecNum.toRat_int, DecNum.toRat_int,
    DecNum.toRat_negExp]
  push_cast
  ring

theorem parseLrc_eq (s : String) :
    parseLrc s = List.insertionSort lineLe ((s.data.splitOn '\n').filterMap parseLine) := rfl

instance : IsTotal LrcLine lineLe :=
  ⟨fun a b => by
    unfold lineLe
    rw [DecNum.ble_iff, DecNum.ble_iff]
    exact le_total _ _⟩

instance : IsTrans LrcLine lineLe :=
  ⟨fun a b c hab hbc => by
    unfold lineLe at *
    rw [DecNum.ble_iff] at *
    exact le_trans hab hbc⟩

/-- The output of `parseLrc` is pairwise ordered by numeric time. -/
theorem parseLrc_sorted_pairwise (s : String) :
    (parseLrc s).Sorted (fun a b => a.lineTime.toRat ≤ b.lineTime.toRat) := by
  rw [parseLrc_eq]
  exact (List.sorted_insertionSort lineLe _).imp (fun h => (DecNum.ble_iff _ _).mp h)

/-- A single line with no newline parses to at most one record. -/
theorem parseLrc_single (cs : List Char) (h : ('\n' : Char) ∉ cs) :
    parseLrc (String.mk cs) = (parseLine cs).toList := by
  rw [parseLrc_eq]
  rw [show (String.mk cs).data = cs from rfl, splitOnChar_single '\n' cs h]
  cases hp : parseLine cs <;>
    simp [List.filterMap, hp, List.insertionSort, List.orderedInsert]

/-- A leading line without a timestamp tag contributes nothing. -/
theorem parseLrc_skip (bad rest : List Char) (hn : ('\n' : Char) ∉ bad)
    (hf : findTimeTag bad = none) :
    parseLrc (String.mk (bad ++ '\n' :: rest)) = parseLrc (String.mk rest) := by
  rw [parseLrc_eq, parseLrc_eq]
  rw [show (String.mk (bad ++ '\n' :: rest)).data = bad ++ '\n' :: rest from rfl,
    show (String.mk rest).data = rest from rfl, splitOnChar_first '\n' bad hn rest]
  rw [List.filterMap_cons, parseLine_none bad hf]

/-! ## Claim C1 -/

/-- Claim C1: on a sequence sorted ascending by start time, `getCurrentLine`
returns the last line whose start time does not exceed the query time: it
returns an absent result exactly when every line starts strictly after the
query time, and otherwise the returned line is a qualifying line with the
greatest start time, with no later element of the sequence qualifying.  In
particular, for lines with start times 5, 10 and 15, querying 7 returns the
line at 5, querying 15 returns the line at 15, querying 3 returns absent,
and querying 15.001 returns the line at 15. -/
theorem getCurrentLine_last_started (lines : List LrcLine) (t : DecNum)
    (hs : lines.Sorted (fun a b => a.lineTime.toRat ≤ b.lineTime.toRat)) :
    (getCurrentLine lines t = none ↔ ∀ l ∈ lines, t.toRat < l.lineTime.toRat) ∧
    (∀ l, getCurrentLine lines t = some l →
      l.lineTime.toRat ≤ t.toRat ∧
      (∀ x ∈ lines, x.lineTime.toRat ≤ t.toRat → x.lineTime.toRat ≤ l.lineTime.toRat) ∧
      ∃ before after, lines = before ++ l :: after ∧
        ∀ x ∈ after, t.toRat < x.lineTime.toRat) ∧
    (∀ a b c : LrcLine, a.lineTime = ⟨5, 0⟩ → b.lineTime = ⟨10, 0⟩ → c.lineTime = ⟨15, 0⟩ →
      getCurrentLine [a, b, c] ⟨7, 0⟩ = some a ∧
      getCurrentLine [a, b, c] ⟨15, 0⟩ = some c ∧
      getCurrentLine [a, b, c] ⟨3, 0⟩ = none ∧
      getCurrentLine [a, b, c] ⟨15001, -3⟩ = some c) := by
  refine ⟨?_, ?_, ?_⟩
  · unfold getCurrentLine
    rw [List.find?_eq_none]
    constructor
    · intro h l hl
      have hb := h l (List.mem_reverse.mpr hl)
      exact not_le.mp (fun hh => hb ((DecNum.ble_iff _ _).mpr hh))
    · intro h l hl hble
      exact absurd ((DecNum.ble_iff _ _).mp hble)
        (not_le.mpr (h l (List.mem_reverse.mp hl)))
  · intro l hsome
    unfold getCurrentLine at hsome
    rw [List.find?_eq_some] at hsome
    obtain ⟨hpl, as, bs, hdec, hfail⟩ := hsome
    have hlines : lines = bs.reverse ++ l :: as.reverse := by
      have := congrArg List.reverse hdec
      rw [List.reverse_reverse] at this
      rw [this]
      simp
    have hafter : ∀ x ∈ as.reverse, t.toRat < x.lineTime.toRat := by
      intro x hx
      have hbx := hfail x (List.mem_reverse.mp hx)
      rw [Bool.not_eq_eq_eq_not, Bool.not_true] at hbx
      exact (DecNum.not_ble_iff _ _).mp hbx
    refine ⟨(DecNum.ble_iff _ _).mp hpl, ?_, bs.reverse, as.reverse, hlines, hafter⟩
    intro x hx hxle
    rw [hlines] at hs hx
    obtain ⟨hs1, hs2, hs12⟩ := List.pairwise_append.mp hs
    rcases List.mem_append.mp hx with hxb | hxc
    · exact hs12 x hxb l (List.mem_cons_self _ _)
    · rcases List.mem_cons.mp hxc with rfl | hxa
      · exact le_refl _
      · exact absurd hxle (not_le.mpr (hafter x hxa))
  · intro a b c ha hb hc
    obtain ⟨ta, xa, sa⟩ := a
    obtain ⟨tb, xb, sb⟩ := b
    obtain ⟨tc, xc, sc⟩ := c
    obtain rfl : ta = ⟨5, 0⟩ := ha
    obtain rfl : tb = ⟨10, 0⟩ := hb
    obtain rfl : tc = ⟨15, 0⟩ := hc
    exact ⟨rfl, rfl, rfl, rfl⟩

/-- Witness for C1 at a concrete sorted three-line list. -/
theorem getCurrentLine_last_started_witness :
    getCurrentLine [⟨⟨5, 0⟩, "a", none⟩, ⟨⟨10, 0⟩, "b", none⟩, ⟨⟨15, 0⟩, "c", none⟩]
        ⟨15001, -3⟩ = some ⟨⟨15, 0⟩, "c", none⟩ :=
  ((getCurrentLine_last_started
      [⟨⟨5, 0⟩, "a", none⟩, ⟨⟨10, 0⟩, "b", none⟩, ⟨⟨15, 0⟩, "c", none⟩] ⟨15001, -3⟩
      (by
        refine List.Pairwise.cons ?_ (List.Pairwise.cons ?_ (List.pairwise_singleton _ _)) <;>
          intro x hx <;> simp only [List.mem_cons, List.mem_singleton] at hx
        · rcases hx with rfl | rfl | h
          · norm_num [DecNum.toRat_mk]
          · norm_num [DecNum.toRat_mk]
          · cases h
        · rcases hx with rfl | h
          · norm_num [DecNum.toRat_mk]
          · cases h)).2.2
    ⟨⟨5, 0⟩, "a", none⟩ ⟨⟨10, 0⟩, "b", none⟩ ⟨⟨15, 0⟩, "c", none⟩ rfl rfl rfl).2.2.2

/-! ## Claim C2 -/

/-- Claim C2: for every input string the output of `parseLrc` is sorted
ascending by start time — every adjacent pair is ordered — regardless of
the order of timestamps in the input; in particular an input whose
timestamps appear in descending textual order comes out ascending. -/
theorem parseLrc_sorted (s : String) (i : ℕ) (h : i + 1 < (parseLrc s).length) :
    ((parseLrc s).get ⟨i, Nat.lt_of_succ_lt h⟩).lineTime.toRat
      ≤ ((parseLrc s).get ⟨i + 1, h⟩).lineTime.toRat ∧
    parseLrc "[00:15]b\n[00:10]a\n[00:05]c" =
      [⟨⟨5, 0⟩, "c", none⟩, ⟨⟨10, 0⟩, "a", none⟩, ⟨⟨15, 0⟩, "b", none⟩] := by
  refine ⟨?_, by decide⟩
  exact (parseLrc_sorted_pairwise s).rel_get_of_lt (Fin.mk_lt_mk.mpr (Nat.lt_succ_self i))

/-- Witness for C2 on the descending-order input. -/
theorem parseLrc_sorted_witness :
    ((parseLrc "[00:15]b\n[00:10]a\n[00:05]c").get ⟨0, by decide⟩).lineTime.toRat
      ≤ ((parseLrc "[00:15]b\n[00:10]a\n[00:05]c").get ⟨1, by decide⟩).lineTime.toRat :=
  (parseLrc_sorted "[00:15]b\n[00:10]a\n[00:05]c" 0 (by decide)).1

/-- A line with a matched tag always produces a record, and its time is
`tagTime` of the captures, whatever the style branch does. -/
theorem parseLine_isSome_time (line pre mm ss post : List Char)
    (hf : findTimeTag line = some (pre, mm, ss, post)) :
    ∃ l, parseLine line = some l ∧ l.lineTime = tagTime mm ss := by
  cases hst : findStyle (trimList (pre ++ post)) with
  | none => exact ⟨_, parseLine_no_style line pre mm ss post hf hst, rfl⟩
  | some r =>
    obtain ⟨sb, content, sa⟩ := r
    exact ⟨_, parseLine_with_style line pre mm ss post sb content sa hf hst, rfl⟩

/-! ## Claim C3 -/

/-- Claim C3: a line carrying a tag `[MM:SS]` or `[MM:SS.fff]` (two-digit
minutes and seconds, two or three fractional digits) produces a record
whose start time is `minutes * 60 + seconds`, fractional part included;
in particular `[01:02.500]` yields start time 62.5. -/
theorem parseLrc_time_formula (d1 d2 d3 d4 : Char) (h1 : d1.isDigit = true)
    (h2 : d2.isDigit = true) (h3 : d3.isDigit = true) (h4 : d4.isDigit = true)
    (fs : List Char) (hfs : ∀ c ∈ fs, c.isDigit = true)
    (hlen : fs.length = 2 ∨ fs.length = 3) (post : List Char) :
    (∃ l, parseLine ('[' :: d1 :: d2 :: ':' :: d3 :: d4 :: '.' :: fs ++ ']' :: post) = some l ∧
      l.lineTime.toRat = (digitsToNat [d1, d2] : ℚ) * 60
        + (digitsToNat ([d3, d4] ++ fs) : ℚ) / 10 ^ fs.length) ∧
    (∃ l, parseLine ('[' :: d1 :: d2 :: ':' :: d3 :: d4 :: ']' :: post) = some l ∧
      l.lineTime.toRat = (digitsToNat [d1, d2] : ℚ) * 60 + (digitsToNat [d3, d4] : ℚ)) ∧
    (parseLrc "[01:02.500]").map (fun l => l.lineTime.toRat) = [125 / 2] := by
  refine ⟨?_, ?_, ?_⟩
  · rcases hlen with hl | hl
    · obtain ⟨f1, f2, rfl⟩ := List.length_eq_two.mp hl
      have g1 : f1.isDigit = true := hfs f1 (by simp)
      have g2 : f2.isDigit = true := hfs f2 (by simp)
      have hf := findTimeTag_tag_frac2 d1 d2 d3 d4 f1 f2 h1 h2 h3 h4 g1 g2 post
      obtain ⟨l, hpl, hlt⟩ := parseLine_isSome_time _ _ _ _ _ hf
      refine ⟨l, hpl, ?_⟩
      rw [hlt]
      exact tagTime_frac_toRat d1 d2 d3 d4 h3 h4 [f1, f2] hfs
    · obtain ⟨f1, f2, f3, rfl⟩ := List.length_eq_three.mp hl
      have g1 : f1.isDigit = true := hfs f1 (by simp)
      have g2 : f2.isDigit = true := hfs f2 (by simp)
      have g3 : f3.isDigit = true := hfs f3 (by simp)
      have hf := findTimeTag_tag_frac3 d1 d2 d3 d4 f1 f2 f3 h1 h2 h3 h4 g1 g2 g3 post
      obtain ⟨l, hpl, hlt⟩ := parseLine_isSome_time _ _ _ _ _ hf
      refine ⟨l, hpl, ?_⟩
      rw [hlt]
      exact tagTime_frac_toRat d1 d2 d3 d4 h3 h4 [f1, f2, f3] hfs
  · have hf := findTimeTag_tag d1 d2 d3 d4 h1 h2 h3 h4 post
    obtain ⟨l, hpl, hlt⟩ := parseLine_isSome_time _ _ _ _ _ hf
    refine ⟨l, hpl, ?_⟩
    rw [hlt]
    exact tagTime_nofrac_toRat d1 d2 d3 d4 h3 h4
  · rw [show parseLrc "[01:02.500]" = [⟨⟨62500, -3⟩, "", none⟩] from by decide]
    rw [List.map_cons, List.map_nil, DecNum.toRat_mk]
    norm_num

/-- Witness for C3 at the tag `[01:02.500]`. -/
theorem parseLrc_time_formula_witness :
    ∃ l, parseLine ('[' :: '0' :: '1' :: ':' :: '0' :: '2' :: '.' :: ['5', '0', '0']
        ++ ']' :: []) = some l ∧
      l.lineTime.toRat = (digitsToNat ['0', '1'] : ℚ) * 60
        + (digitsToNat (['0', '2'] ++ ['5', '0', '0']) : ℚ) / 10 ^ (['5', '0', '0'] : List Char).length :=
  (parseLrc_time_formula '0' '1' '0' '2' (by decide) (by decide) (by decide) (by decide)
    ['5', '0', '0'] (by decide) (by decide) []).1

/-- A one-pair annotation `key:value` (no commas, one colon) produces the
single mapping entry, with the value coerced through `parseFloat`. -/
theorem parseStyle_single_pair (k v : List Char) (hk1 : ':' ∉ k) (hk2 : ',' ∉ k)
    (hv1 : ':' ∉ v) (hv2 : ',' ∉ v) (hk : trimList k ≠ []) (hv : trimList v ≠ []) :
    parseStyle (k ++ ':' :: v) =
      [(String.mk (trimList k),
        match parseFloat (trimList v) with
        | some n => StyleVal.num n
        | none => StyleVal.str (String.mk (trimList v)))] := by
  unfold parseStyle
  have hnc : (',' : Char) ∉ (k ++ ':' :: v) := by
    intro h
    rcases List.mem_append.mp h with h | h
    · exact hk2 h
    · rcases List.mem_cons.mp h with h | h
      · exact absurd h (by decide)
      · exact hv2 h
  rw [splitOnChar_single ',' _ hnc, List.foldl_cons, List.foldl_nil]
  unfold parseStylePair
  rw [splitOnChar_first ':' k hk1 v, splitOnChar_single ':' v hv1]
  simp only [List.map_cons, List.map_nil]
  rw [if_pos ⟨hk, hv⟩]
  cases parseFloat (trimList v) with
  | some n => simp [insertStyle]
  | none => simp [insertStyle]

/-! ## Claim C4 -/

/-- Claim C4: a retained `key:value` pair stores the number when the
trimmed value converts (in the `parseFloat` sense) to a valid number, and
otherwise stores the trimmed string verbatim; an all-digit value converts
to its integer value, while values with no numeric prefix — including
boolean-looking `true` and enum-like `diag` — are kept as strings.  In
particular `{size:100, font:gothic}` stores `size` as the number 100 and
`font` as the string `"gothic"`. -/
theorem parseStyle_value_coercion (k v : List Char) (hk1 : ':' ∉ k) (hk2 : ',' ∉ k)
    (hv1 : ':' ∉ v) (hv2 : ',' ∉ v) (hk : trimList k ≠ []) (hv : trimList v ≠ []) :
    (∀ n, parseFloat (trimList v) = some n →
      parseStyle (k ++ ':' :: v) = [(String.mk (trimList k), StyleVal.num n)]) ∧
    (parseFloat (trimList v) = none →
      parseStyle (k ++ ':' :: v)
        = [(String.mk (trimList k), StyleVal.str (String.mk (trimList v)))]) ∧
    (∀ ds : List Char, ds ≠ [] → (∀ c ∈ ds, c.isDigit = true) →
      parseFloat ds = some ⟨(digitsToNat ds : ℤ), 0⟩) ∧
    parseLrc "[00:01]x {size:100, font:gothic}" =
      [⟨⟨1, 0⟩, "x", some [("size", StyleVal.num ⟨100, 0⟩), ("font", StyleVal.str "gothic")]⟩] ∧
    DecNum.toRat ⟨100, 0⟩ = 100 ∧
    parseLrc "[00:01]x {flag:true, exit:diag}" =
      [⟨⟨1, 0⟩, "x", some [("flag", StyleVal.str "true"), ("exit", StyleVal.str "diag")]⟩] := by
  have hsp := parseStyle_single_pair k v hk1 hk2 hv1 hv2 hk hv
  refine ⟨?_, ?_, parseFloat_digits, by decide, by rw [DecNum.toRat_int]; norm_num, by decide⟩
  · intro n hn
    rw [hsp, hn]
  · intro hn
    rw [hsp, hn]

/-- Witness for C4 at the pair `size:100`. -/
theorem parseStyle_value_coercion_witness :
    parseStyle ("size".data ++ ':' :: "100".data) =
      [(String.mk (trimList "size".data), StyleVal.num ⟨100, 0⟩)] :=
  (parseStyle_value_coercion "size".data "100".data (by decide) (by decide) (by decide)
    (by decide) (by decide) (by decide)).1 ⟨100, 0⟩ (by decide)

theorem insertStyle_nil (k : String) (v : StyleVal) : insertStyle [] k v = [(k, v)] := rfl

theorem insertStyle_overwrite (key : String) (x y : StyleVal) :
    insertStyle [(key, x)] key y = [(key, y)] := by
  simp [insertStyle]

/-- Evaluation of one segment `key:value` (value colon-free). -/
theorem parseStylePair_eval (st : List (String × StyleVal)) (k v : List Char)
    (hk1 : ':' ∉ k) (hv1 : ':' ∉ v) (hk : trimList k ≠ []) (hv : trimList v ≠ []) :
    parseStylePair st (k ++ ':' :: v) =
      insertStyle st (String.mk (trimList k))
        (match parseFloat (trimList v) with
         | some n => StyleVal.num n
         | none => StyleVal.str (String.mk (trimList v))) := by
  unfold parseStylePair
  rw [splitOnChar_first ':' k hk1 v, splitOnChar_single ':' v hv1]
  simp only [List.map_cons, List.map_nil]
  rw [if_pos ⟨hk, hv⟩]
  cases parseFloat (trimList v) <;> rfl

/-- Evaluation of one segment `key:value:rest`: only the part of the
value before the second colon is used, the rest is dropped. -/
theorem parseStylePair_eval2 (st : List (String × StyleVal)) (k v w : List Char)
    (hk1 : ':' ∉ k) (hv1 : ':' ∉ v) (hk : trimList k ≠ []) (hv : trimList v ≠ []) :
    parseStylePair st (k ++ ':' :: v ++ ':' :: w) =
      insertStyle st (String.mk (trimList k))
        (match parseFloat (trimList v) with
         | some n => StyleVal.num n
         | none => StyleVal.str (String.mk (trimList v))) := by
  unfold parseStylePair
  rw [show (k ++ ':' :: v ++ ':' :: w : List Char) = k ++ ':' :: (v ++ ':' :: w) from by simp,
    splitOnChar_first ':' k hk1 (v ++ ':' :: w), splitOnChar_first ':' v hv1 w]
  simp only [List.map_cons]
  rw [if_pos ⟨hk, hv⟩]
  cases parseFloat (trimList v) <;> rfl

/-! ## Claim C5 (corrected) -/

/-- Counterexample to C5 as stated: in the annotation `{url:http://x}`
the code keeps only the part of the value before the second colon —
the stored value is the string `"http"`, not `"http://x"` as the
first-colon-split reading predicts. -/
theorem parseStyle_first_colon_counterexample :
    parseLrc "[00:01]a {url:http://x}" =
      [⟨⟨1, 0⟩, "a", some [("url", StyleVal.str "http")]⟩] ∧
    parseLrc "[00:01]a {url:http://x}" ≠
      [⟨⟨1, 0⟩, "a", some [("url", StyleVal.str "http://x")]⟩] := by
  decide

/-- Claim C5 as amended: each comma-separated segment is split on `':'`
and the first two components become the trimmed key and the trimmed
value; content after a second colon is discarded.  A segment without a
colon (missing value) is discarded, and a later duplicate key overwrites
the earlier value. -/
theorem parseStyle_split_segments (k v w : List Char) (hk1 : ':' ∉ k) (hk2 : ',' ∉ k)
    (hv1 : ':' ∉ v) (hv2 : ',' ∉ v) (hw : ',' ∉ w)
    (hk : trimList k ≠ []) (hv : trimList v ≠ []) :
    (parseStyle (k ++ ':' :: v ++ ':' :: w) =
      [(String.mk (trimList k),
        match parseFloat (trimList v) with
        | some n => StyleVal.num n
        | none => StyleVal.str (String.mk (trimList v)))]) ∧
    (∀ s : List Char, ':' ∉ s → ',' ∉ s → parseStyle s = []) ∧
    (∀ v2 : List Char, ':' ∉ v2 → ',' ∉ v2 → trimList v2 ≠ [] →
      parseStyle ((k ++ ':' :: v) ++ ',' :: (k ++ ':' :: v2)) =
        parseStyle (k ++ ':' :: v2)) := by
  refine ⟨?_, ?_, ?_⟩
  · unfold parseStyle
    have hnc : (',' : Char) ∉ (k ++ ':' :: v ++ ':' :: w) := by
      intro h
      rcases List.mem_append.mp h with h | h
      · rcases List.mem_append.mp h with h | h
        · exact hk2 h
        · rcases List.mem_cons.mp h with h | h
          · exact absurd h (by decide)
          · exact hv2 h
      · rcases List.mem_cons.mp h with h | h
        · exact absurd h (by decide)
        · exact hw h
    rw [splitOnChar_single ',' _ hnc, List.foldl_cons, List.foldl_nil,
      parseStylePair_eval2 [] k v w hk1 hv1 hk hv, insertStyle_nil]
  · intro s hs1 hs2
    unfold parseStyle
    rw [splitOnChar_single ',' s hs2, List.foldl_cons, List.foldl_nil]
    unfold parseStylePair
    rw [splitOnChar_single ':' s hs1]
    rfl
  · intro v2 h21 h22 h2t
    have hnc1 : (',' : Char) ∉ (k ++ ':' :: v) := by
      intro h
      rcases List.mem_append.mp h with h | h
      · exact hk2 h
      · rcases List.mem_cons.mp h with h | h
        · exact absurd h (by decide)
        · exact hv2 h
    have hnc2 : (',' : Char) ∉ (k ++ ':' :: v2) := by
      intro h
      rcases List.mem_append.mp h with h | h
      · exact hk2 h
      · rcases List.mem_cons.mp h with h | h
        · exact absurd h (by decide)
        · exact h22 h
    unfold parseStyle
    rw [splitOnChar_first ',' (k ++ ':' :: v) hnc1 (k ++ ':' :: v2),
      splitOnChar_single ',' _ hnc2, List.foldl_cons, List.foldl_cons, List.foldl_nil,
      List.foldl_cons, List.foldl_nil,
      parseStylePair_eval [] k v hk1 hv1 hk hv, insertStyle_nil,
      parseStylePair_eval _ k v2 hk1 h21 hk h2t,
      parseStylePair_eval [] k v2 hk1 h21 hk h2t, insertStyle_nil,
      insertStyle_overwrite]

/-- Witness for the amended C5 at the segment `url:http://x`. -/
theorem parseStyle_split_segments_witness :
    parseStyle ("url".data ++ ':' :: "http".data ++ ':' :: "//x".data) =
      [(String.mk (trimList "url".data),
        match parseFloat (trimList "http".data) with
        | some n => StyleVal.num n
        | none => StyleVal.str (String.mk (trimList "http".data)))] :=
  (parseStyle_split_segments "url".data "http".data "//x".data (by decide) (by decide)
    (by decide) (by decide) (by decide) (by decide) (by decide)).1

/-! ## Claim C6 -/

/-- Claim C6: `parseLrc` never fails.  Empty input gives the empty
sequence; a line with a malformed or absent timestamp tag is skipped and
contributes nothing; a malformed style pair such as `{color}` contributes
no key and leaves the rest of the parse intact. -/
theorem parseLrc_error_tolerance :
    parseLrc "" = [] ∧
    (∀ bad rest : List Char, ('\n' : Char) ∉ bad → findTimeTag bad = none →
      parseLrc (String.mk (bad ++ '\n' :: rest)) = parseLrc (String.mk rest)) ∧
    parseLrc "[0:01]x\nno tag here\n[00:1]y\n[00:01.1]z\n[00:02.1234]w" = [] ∧
    parseLrc "[00:01]hello {color}" = [⟨⟨1, 0⟩, "hello", some []⟩] :=
  ⟨by decide, parseLrc_skip, by decide, by decide⟩

/-- Witness for C6: a tagless line ahead of a tagged one is dropped. -/
theorem parseLrc_error_tolerance_witness :
    parseLrc (String.mk ("junk line".data ++ '\n' :: "[00:05]a".data)) =
      parseLrc (String.mk "[00:05]a".data) :=
  parseLrc_error_tolerance.2.1 "junk line".data "[00:05]a".data (by decide) (by decide)

/-! ## Claim C7 -/

/-- Claim C7: a line with a valid tag whose text is empty after removing
the tag (and any annotation) and trimming still produces a record with
empty text, the computed time, and the style when an annotation was
present; in particular `[00:10.000]` alone gives text `""` and start time
10. -/
theorem parseLrc_empty_text (d1 d2 d3 d4 : Char) (h1 : d1.isDigit = true)
    (h2 : d2.isDigit = true) (h3 : d3.isDigit = true) (h4 : d4.isDigit = true)
    (w : List Char) (hw : ∀ c ∈ w, isWsChar c = true) :
    parseLine ('[' :: d1 :: d2 :: ':' :: d3 :: d4 :: ']' :: w) =
      some ⟨tagTime [d1, d2] [d3, d4], "", none⟩ ∧
    (∀ content : List Char, (∀ c ∈ content, c ≠ '}' ∧ c ≠ '\n' ∧ c ≠ '\r') →
      parseLine ('[' :: d1 :: d2 :: ':' :: d3 :: d4 :: ']'
          :: (w ++ '{' :: (content ++ ['}']))) =
        some ⟨tagTime [d1, d2] [d3, d4], "", some (parseStyle content)⟩) ∧
    parseLrc "[00:10.000]" = [⟨⟨10000, -3⟩, "", none⟩] ∧
    DecNum.toRat ⟨10000, -3⟩ = 10 := by
  refine ⟨?_, ?_, by decide, by rw [DecNum.toRat_mk]; norm_num⟩
  · have hf := findTimeTag_tag d1 d2 d3 d4 h1 h2 h3 h4 w
    have htrim : trimList ([] ++ w) = [] := by
      rw [List.nil_append]
      exact trimList_ws w hw
    have hns : findStyle (trimList ([] ++ w)) = none := by rw [htrim]; rfl
    have hres := parseLine_no_style _ [] [d1, d2] [d3, d4] w hf hns
    rw [htrim] at hres
    exact hres
  · intro content hcl
    have hf := findTimeTag_tag d1 d2 d3 d4 h1 h2 h3 h4 (w ++ '{' :: (content ++ ['}']))
    have hrev : ('{' :: (content ++ ['}']) : List Char).reverse
        = '}' :: (content.reverse ++ ['{']) := by simp
    have htrim : trimList (w ++ '{' :: (content ++ ['}'])) = '{' :: (content ++ ['}']) := by
      have hsw := trimList_sandwich w [] ('{' :: (content ++ ['}'])) hw (by simp)
        (fun c cs hc => by injection hc with hc2; rw [← hc2]; decide)
        (fun c cs hc => by
          rw [hrev] at hc
          injection hc with hc2
          rw [← hc2]
          decide)
      rwa [List.append_nil] at hsw
    have hst : findStyle (trimList ([] ++ (w ++ '{' :: (content ++ ['}']))))
        = some ([], content, []) := by
      rw [List.nil_append, htrim]
      exact findStyle_brace content [] hcl
    have hres := parseLine_with_style _ [] [d1, d2] [d3, d4] _ [] content [] hf hst
    exact hres

/-- Witness for C7 at the tag-only line `[00:10]`. -/
theorem parseLrc_empty_text_witness :
    parseLine ('[' :: '0' :: '0' :: ':' :: '1' :: '0' :: ']' :: []) =
      some ⟨tagTime ['0', '0'] ['1', '0'], "", none⟩ :=
  (parseLrc_empty_text '0' '0' '1' '0' (by decide) (by decide) (by decide) (by decide) []
    (by decide)).1

/-! ## Claim C8 -/

/-- Claim C8: an empty annotation `{}` — or one whose segments are all
discarded, such as `{color}` — still yields a present-but-empty style
mapping; and in general the style field of an emitted record is absent
exactly when the line text after tag removal carries no brace-delimited
annotation at all. -/
theorem parseLine_style_presence :
    parseLrc "[00:01]x {}" = [⟨⟨1, 0⟩, "x", some []⟩] ∧
    parseLrc "[00:01]x {color}" = [⟨⟨1, 0⟩, "x", some []⟩] ∧
    (∀ d1 d2 d3 d4 : Char, d1.isDigit = true → d2.isDigit = true → d3.isDigit = true →
      d4.isDigit = true → ∀ (body : List Char) (l : LrcLine),
      parseLine ('[' :: d1 :: d2 :: ':' :: d3 :: d4 :: ']' :: body) = some l →
      (l.style = none ↔ ¬ ∃ a m b, trimList body = a ++ '{' :: (m ++ '}' :: b) ∧
        ∀ c ∈ m, c ≠ '}' ∧ c ≠ '\n' ∧ c ≠ '\r')) := by
  refine ⟨by decide, by decide, ?_⟩
  intro d1 d2 d3 d4 h1 h2 h3 h4 body l hp
  have hf := findTimeTag_tag d1 d2 d3 d4 h1 h2 h3 h4 body
  have hiff := findStyle_isSome_iff (trimList body)
  have hnil : (([] : List Char) ++ body) = body := List.nil_append body
  cases hst : findStyle (trimList body) with
  | none =>
    have hres := parseLine_no_style _ [] [d1, d2] [d3, d4] body hf (by rw [hnil]; exact hst)
    rw [hp] at hres
    obtain rfl := Option.some.inj hres
    simp only [hst, Option.isSome_none, Bool.false_eq_true, false_iff] at hiff
    exact ⟨fun _ => hiff, fun _ => rfl⟩
  | some r =>
    obtain ⟨sb, content, sa⟩ := r
    have hres := parseLine_with_style _ [] [d1, d2] [d3, d4] body sb content sa hf
      (by rw [hnil]; exact hst)
    rw [hp] at hres
    obtain rfl := Option.some.inj hres
    have hex := hiff.mp (by rw [hst]; rfl)
    exact ⟨fun hcontr => absurd hcontr (by simp), fun hno => absurd hex hno⟩

/-- Witness for C8 at the annotation-free line `[00:05]x`. -/
theorem parseLine_style_presence_witness :
    ((none : Option (List (String × StyleVal))) = none ↔
      ¬ ∃ a m b, trimList ['x'] = a ++ '{' :: (m ++ '}' :: b) ∧
        ∀ c ∈ m, c ≠ '}' ∧ c ≠ '\n' ∧ c ≠ '\r') :=
  parseLine_style_presence.2.2 '0' '0' '0' '5' (by decide) (by decide) (by decide) (by decide)
    ['x'] ⟨⟨5, 0⟩, "x", none⟩ (by decide)

/-! ## Claim C9 -/

/-- Claim C9: the seconds field is not range-checked against 60 — any
two-digit seconds value 00–99 is accepted with its numeric value, so
`[00:99]` gives 99 while `[01:00]` gives 60, and the final sort orders
such lines by numeric time, not by textual tag. -/
theorem parseLrc_seconds_unchecked (d3 d4 : Char) (h3 : d3.isDigit = true)
    (h4 : d4.isDigit = true) :
    parseLrc (String.mk ('[' :: '0' :: '0' :: ':' :: d3 :: d4 :: [']'])) =
      [⟨⟨(digitsToNat [d3, d4] : ℤ), 0⟩, "", none⟩] ∧
    parseLrc "[00:99]a\n[01:00]b" = [⟨⟨60, 0⟩, "b", none⟩, ⟨⟨99, 0⟩, "a", none⟩] ∧
    DecNum.toRat ⟨99, 0⟩ = 99 ∧ DecNum.toRat ⟨60, 0⟩ = 60 := by
  have hds : ∀ c ∈ ([d3, d4] : List Char), c.isDigit = true := by
    intro c hc
    rcases List.mem_cons.mp hc with rfl | hc2
    · exact h3
    · rcases List.mem_cons.mp hc2 with rfl | hc3
      · exact h4
      · cases hc3
  refine ⟨?_, by decide, by rw [DecNum.toRat_int]; norm_num, by rw [DecNum.toRat_int]; norm_num⟩
  have hnn : ('\n' : Char) ∉ ('[' :: '0' :: '0' :: ':' :: d3 :: d4 :: [']'] : List Char) := by
    intro h
    simp only [List.mem_cons, List.not_mem_nil, or_false] at h
    rcases h with h | h | h | h | h | h | h
    · exact absurd h (by decide)
    · exact absurd h (by decide)
    · exact absurd h (by decide)
    · exact absurd h (by decide)
    · exact ne_of_isDigit h3 (by decide) h.symm
    · exact ne_of_isDigit h4 (by decide) h.symm
    · exact absurd h (by decide)
  rw [parseLrc_single _ hnn]
  have hf := findTimeTag_tag '0' '0' d3 d4 (by decide) (by decide) h3 h4 []
  have hns : findStyle (trimList (([] : List Char) ++ [])) = none := rfl
  have hres := parseLine_no_style _ [] ['0', '0'] [d3, d4] [] hf hns
  rw [hres]
  have ht : tagTime ['0', '0'] [d3, d4] = ⟨(digitsToNat [d3, d4] : ℤ), 0⟩ := by
    unfold tagTime
    rw [parseFloat_digits [d3, d4] (by simp) hds, Option.getD_some]
    simp [DecNum.mul, DecNum.add, digitsToNat]
  rw [ht]
  rfl

/-- Witness for C9 at the tag `[00:99]`. -/
theorem parseLrc_seconds_unchecked_witness :
    parseLrc (String.mk ('[' :: '0' :: '0' :: ':' :: '9' :: '9' :: [']'])) =
      [⟨⟨(digitsToNat ['9', '9'] : ℤ), 0⟩, "", none⟩] :=
  (parseLrc_seconds_unchecked '9' '9' (by decide) (by decide)).1

/-! ## Claim C10 -/

theorem trimList_subset (cs : List Char) : ∀ x ∈ trimList cs, x ∈ cs := by
  intro x hx
  unfold trimList at hx
  rw [List.mem_reverse] at hx
  have h1 : x ∈ ((cs.dropWhile isWsChar).reverse : List Char) :=
    (List.dropWhile_sublist _).mem hx
  rw [List.mem_reverse] at h1
  exact (List.dropWhile_sublist _).mem h1

/-- Claim C10: the timestamp tag is recognized at any position in the
line; only the first tag occurrence is removed when forming the display
text, and the text around the tag — including a later second tag —
remains in the trimmed display text. -/
theorem parseLrc_tag_anywhere (d1 d2 d3 d4 : Char) (h1 : d1.isDigit = true)
    (h2 : d2.isDigit = true) (h3 : d3.isDigit = true) (h4 : d4.isDigit = true)
    (pre post : List Char) (hpre : ('[' : Char) ∉ pre) (hb1 : ('{' : Char) ∉ pre)
    (hb2 : ('{' : Char) ∉ post) :
    (∃ l, parseLine (pre ++ '[' :: d1 :: d2 :: ':' :: d3 :: d4 :: ']' :: post) = some l ∧
      l.lineTime.toRat = (digitsToNat [d1, d2] : ℚ) * 60 + (digitsToNat [d3, d4] : ℚ) ∧
      l.text = String.mk (trimList (pre ++ post)) ∧ l.style = none) ∧
    parseLrc "hello [00:05]world" = [⟨⟨5, 0⟩, "hello world", none⟩] ∧
    parseLrc "x[00:05]y[00:06]z" = [⟨⟨5, 0⟩, "xy[00:06]z", none⟩] := by
  refine ⟨?_, by decide, by decide⟩
  have heq : findTimeTag (pre ++ '[' :: d1 :: d2 :: ':' :: d3 :: d4 :: ']' :: post) =
      some (pre ++ [], [d1, d2], [d3, d4], post) := by
    rw [findTimeTag_append pre hpre _, findTimeTag_tag d1 d2 d3 d4 h1 h2 h3 h4 post]
  have hnb : ('{' : Char) ∉ trimList ((pre ++ []) ++ post) := by
    rw [List.append_nil]
    intro hmem
    rcases List.mem_append.mp (trimList_subset _ _ hmem) with h | h
    · exact hb1 h
    · exact hb2 h
  have hns : findStyle (trimList ((pre ++ []) ++ post)) = none :=
    findStyle_none_of_no_brace _ hnb
  have hres := parseLine_no_style _ (pre ++ []) [d1, d2] [d3, d4] post heq hns
  rw [List.append_nil] at hres
  refine ⟨_, hres, ?_, rfl, rfl⟩
  exact tagTime_nofrac_toRat d1 d2 d3 d4 h3 h4

/-- Witness for C10 with text on both sides of the tag. -/
theorem parseLrc_tag_anywhere_witness :
    ∃ l, parseLine ("hello ".data
        ++ '[' :: '0' :: '0' :: ':' :: '0' :: '5' :: ']' :: "world".data) = some l ∧
      l.lineTime.toRat = (digitsToNat ['0', '0'] : ℚ) * 60 + (digitsToNat ['0', '5'] : ℚ) ∧
      l.text = String.mk (trimList ("hello ".data ++ "world".data)) ∧ l.style = none :=
  (parseLrc_tag_anywhere '0' '0' '0' '5' (by decide) (by decide) (by decide) (by decide)
    "hello ".data "world".data (by decide) (by decide) (by decide)).1

